import Mathlib

/-!
Shallow embedding of the motion-extraction and decimation pipeline of
Python-Funscript-Editor (files `funscript_editor/algorithms/signal.py` and
`funscript_editor/algorithms/funscriptgenerator.py`).

Real-valued signals are modelled with `ℚ`.  Python list indices that are
computed at runtime are modelled with `ℤ` (Python allows negative indices,
which wrap), and list indexing that can raise `IndexError` is modelled with
`Option`.  Fallible functions (Python exceptions such as `ZeroDivisionError`,
`IndexError`, `ValueError`, `NotImplementedError`) return `Option`.
Comparisons of Euclidean distances and of standard deviations, which in the
source go through `numpy` square roots, are carried out on squares: for
nonnegative reals `a`, `b`, `a < b ↔ a^2 < b^2`, so the embedded comparisons
are exact for the nonnegative quantities involved.
-/

namespace FunscriptEditor

/-- Python's built-in `round`: round half to even (banker's rounding). -/
def pyRound (q : ℚ) : ℤ :=
  let f : ℤ := ⌊q⌋
  let r : ℚ := q - f
  if r < 1/2 then f
  else if 1/2 < r then f + 1
  else if f % 2 = 0 then f else f + 1

/-- Model of `np.mean` of a list of rationals (0 on the empty list, which the source
never hits on the paths modelled here). -/
def listMean (x : List ℚ) : ℚ := x.sum / (x.length : ℚ)

/-- Python `min(list)` for a nonempty list (headD is only the nonempty seed). -/
def pyListMin (l : List ℚ) : ℚ := l.foldl min (l.headD 0)

/-- Python `max(list)` for a nonempty list. -/
def pyListMax (l : List ℚ) : ℚ := l.foldl max (l.headD 0)

/-- Python list indexing `l[i]` with an `int` index: nonnegative indices are
positions from the front, negative indices wrap from the back, anything else
raises `IndexError` (modelled as `none`). -/
def pyGet (l : List ℚ) (i : ℤ) : Option ℚ :=
  if 0 ≤ i then l.get? i.toNat
  else if 0 ≤ (l.length : ℤ) + i then l.get? ((l.length : ℤ) + i).toNat
  else none

/-- Model of `np.diff(x, 1)`: consecutive differences. -/
def diff (x : List ℚ) : List ℚ := List.zipWith (fun a b => b - a) x x.tail

/-- Model of `np.convolve(x, np.ones(k), 'valid')`: the valid-mode convolution with a
uniform kernel of length `k`.  When the kernel is longer than the signal,
numpy swaps the arguments, so every output entry is the full sum of `x` and
there are `k - len(x) + 1` of them. -/
def validConv (x : List ℚ) (k : ℕ) : List ℚ :=
  if k ≤ x.length then
    (List.range (x.length - k + 1)).map (fun i => ((x.drop i).take k).sum)
  else
    List.replicate (k - x.length + 1) x.sum

/-- Embedding of `Signal.moving_average` from `signal.py`.  The source first applies
`round(w)`; every call site passes a nonnegative integer window, for which
`round` is the identity, so the window is taken as `ℕ`. -/
def moving_average (x : List ℚ) (w : ℕ) : List ℚ :=
  if x.length = 0 then []
  else if x.length ≤ w + 1 then List.replicate x.length (listMean x)
  else if w = 1 then x
  else
    let avg := (validConv x (2*w)).map (fun s => s / ((2*w : ℕ) : ℚ))
    List.replicate w (avg.headD 0) ++ avg
      ++ List.replicate (x.length - (avg.length + w)) (avg.getLastD 0)

/-- Population variance `np.std(x)^2` of a list.  The source works with the
standard deviation itself; it is only ever compared against other
nonnegative quantities, and those comparisons are embedded on squares. -/
def pop_variance (x : List ℚ) : ℚ :=
  ((x.map (fun v => (v - listMean x)^2)).sum) / (x.length : ℚ)

/-- Embedding of `Signal.moving_standard_deviation` from `signal.py`, carried as the
squared value (the moving population variance): same branch structure,
window `x[ii-w : ii+w+1]` for `ii ∈ [w, len(x)-w)`, edges padded with the
nearest interior value, and the whole-input value when `len(x) - w ≤ w`. -/
def moving_pop_variance (x : List ℚ) (w : ℕ) : List ℚ :=
  if x.length = 0 then []
  else if x.length ≤ 2*w then List.replicate x.length (pop_variance x)
  else
    let core := (List.range (x.length - 2*w)).map
      (fun k => pop_variance ((x.drop k).take (2*w+1)))
    List.replicate w (core.headD 0) ++ core ++ List.replicate w (core.getLastD 0)

/-- The window-normalisation prelude shared by `Signal.first_derivative` and
`Signal.second_derivative`: negative windows become 1, even windows are
incremented to the next odd value. -/
def oddWindow (w : ℤ) : ℕ :=
  let w1 := if w < 0 then 1 else w
  (if w1 % 2 = 0 then w1 + 1 else w1).toNat

/-- Embedding of `Signal.second_derivative` from `signal.py`:
`moving_average(diff(moving_average(diff(x), w), 1), w)` after window
normalisation. -/
def second_derivative (x : List ℚ) (w : ℤ) : List ℚ :=
  moving_average (diff (moving_average (diff x) (oddWindow w))) (oddWindow w)

/-- Embedding of `Signal.scale` from `signal.py`.  For two or more elements the source
divides by `max - min`; a constant signal therefore raises
`ZeroDivisionError`, modelled as `none`. -/
def scale (signal : List ℚ) (lower upper : ℚ) : Option (List ℚ) :=
  if signal.length = 0 then some signal
  else if signal.length = 1 then some [lower]
  else if pyListMax signal - pyListMin signal = 0 then none
  else some (signal.map (fun x =>
    (upper - lower) * (x - pyListMin signal) / (pyListMax signal - pyListMin signal) + lower))

/-! Defaults of the `signalParameter` dataclass (signal.py); the `Signal`
constructor always instantiates them unchanged. -/

/-- Default `signalParameter.avg_sec_for_local_min_max_extraction = 2.0`. -/
def avg_sec_for_local_min_max_extraction : ℚ := 2

/-- Default `signalParameter.additional_points_merge_time_threshold_in_ms = 110.0`. -/
def additional_points_merge_time_threshold_in_ms : ℚ := 110

/-- Default `signalParameter.additional_points_merge_distance_threshold = 10.0`. -/
def additional_points_merge_distance_threshold : ℚ := 10

/-- A tracking box `(x, y, w, h)`; integer when emitted by the tracker,
real-valued when interpolated. -/
abbrev Bbox : Type := ℚ × ℚ × ℚ × ℚ

/-- Projection `bbox[0]`, the x coordinate. -/
def bboxX (b : Bbox) : ℚ := b.1

/-- Projection `bbox[1]`, the y coordinate. -/
def bboxY (b : Bbox) : ℚ := b.2.1

/-- The two sequential `scale(·, 0, 100)` calls that finish
`calculate_score`; either may raise (constant nonsingleton input). -/
def scorePair (sx sy : List ℚ) : Option (List ℚ × List ℚ) :=
  (scale sx 0 100).bind (fun rx => (scale sy 0 100).map (fun ry => (rx, ry)))

/-- Embedding of `FunscriptGenerator.calculate_score` from `funscriptgenerator.py`.  With
`track_men` the scores are the coordinate differences `men - woman` along the
zipped trajectories; without it they are the distances of each woman box from
the coordinate-wise maximum (Python `max` on an empty list raises, modelled as
`none`).  Both scores are then rescaled to `[0, 100]`. -/
def calculate_score (track_men : Bool) (woman men : List Bbox) :
    Option (List ℚ × List ℚ) :=
  if track_men then
    scorePair
      (List.zipWith (fun w m => bboxX m - bboxX w) woman men)
      (List.zipWith (fun w m => bboxY m - bboxY w) woman men)
  else
    match woman with
    | [] => none
    | _ :: _ =>
      scorePair
        (woman.map (fun w => pyListMax (woman.map bboxX) - bboxX w))
        (woman.map (fun w => pyListMax (woman.map bboxY) - bboxY w))

/-- Embedding of `FunscriptGenerator.delete_last_tracking_predictions` from
`funscriptgenerator.py`.  If `len(woman) <= num - 1` both trajectories are
cleared; otherwise the Python loop `for i in range(len-1, len-num, -1)`
deletes the indices `len-1, …, len-num+1`, i.e. the last `num - 1` entries
(none when `num ≤ 1`), from `woman` — and, when `track_men` is set, the same
positions from `men` (the call sites keep both trajectories equally long). -/
def delete_last_tracking_predictions (track_men : Bool) (woman men : List Bbox)
    (num : ℤ) : List Bbox × List Bbox :=
  if (woman.length : ℤ) ≤ num - 1 then ([], [])
  else
    (woman.take (woman.length - (num - 1).toNat),
     if track_men then men.take (men.length - (num - 1).toNat) else men)

/-- The parameters of `FunscriptGenerator` that `apply_shift` reads. -/
structure FunscriptGeneratorParameter where
  start_frame : ℤ
  direction : String
  shift_top_points : ℤ
  shift_bottom_points : ℤ

/-- Embedding of `FunscriptGenerator.apply_shift` from `funscriptgenerator.py`: shift a
max/top (resp. min/bottom) frame index by the configured offset when the
direction is not `x` and the shifted index stays inside `[0, len(score.y))`;
otherwise return the unshifted `start_frame + frame_number`. -/
def apply_shift (p : FunscriptGeneratorParameter) (score_y : List ℚ)
    (frame_number : ℤ) (position : String) : ℤ :=
  if (position = "max" ∨ position = "top") ∧ p.direction ≠ "x" ∧
      frame_number ≥ -1 * p.shift_top_points ∧
      frame_number + p.shift_top_points < (score_y.length : ℤ) then
    p.start_frame + frame_number + p.shift_top_points
  else if (position = "min" ∨ position = "bottom") ∧ p.direction ≠ "x" ∧
      frame_number ≥ -1 * p.shift_bottom_points ∧
      frame_number + p.shift_bottom_points < (score_y.length : ℤ) then
    p.start_frame + frame_number + p.shift_bottom_points
  else
    p.start_frame + frame_number

/-- The configured shift that applies to a position label. -/
def shiftFor (p : FunscriptGeneratorParameter) (position : String) : ℤ :=
  if position = "max" then p.shift_top_points else p.shift_bottom_points

/-- Python `str.lower()` (character-wise; the side strings are ASCII). -/
def pyLower (s : String) : String := String.mk (s.data.map Char.toLower)

/-- One linear scan of `Signal.find_nearest`: Python
`for i in idxs: if stop(array[i]): break; pos = i`, returning the final
`pos`.  `idxs` only ever enumerates valid positions, so the `getD` default
(the search value) is never read. -/
def fn_loop {α : Type} [LinearOrder α] (array : List α) (value : α)
    (stop : α → α → Bool) : List ℕ → ℕ → ℕ
  | [], pos => pos
  | i :: rest, pos =>
    if stop value (array.getD i value) then pos
    else fn_loop array value stop rest i

/-- Embedding of `Signal.find_nearest` from `signal.py`.  The side string is lowercased
first; `left` scans forward breaking at the first element ≥ value, `right`
scans backward breaking at the first element ≤ value, and any other side
raises `NotImplementedError` (modelled as `none`; an out-of-range final
index, possible only for the empty list, is the `IndexError` case). -/
def find_nearest {α : Type} [LinearOrder α] (array : List α) (value : α)
    (side : String) : Option α :=
  if pyLower side = "left" then
    array.get? (fn_loop array value (fun v a => decide (v ≤ a))
      (List.range array.length) 0)
  else if pyLower side = "right" then
    array.get? (fn_loop array value (fun v a => decide (a ≤ v))
      (List.range array.length).reverse (array.length - 1))
  else none

/-- The changepoint-collection loop of `Signal.get_direction_changes`:
append `idx + start` whenever the direction differs from the running one. -/
def dc_loop : List (ℕ × ℤ) → ℤ → ℕ → List ℕ
  | [], _, _ => []
  | (idx, dir) :: rest, current, start =>
    if dir ≠ current then (idx + start) :: dc_loop rest dir start
    else dc_loop rest current start

/-- Embedding of `Signal.get_direction_changes` from `signal.py`: collect the indices `i`
for which `signal[i..i+filter_len]` is strictly monotone, assign each
consecutive pair a direction, and emit `idx + min(filtered)` at every
direction flip.  Returns `[]` when the signal is shorter than `filter_len`
or fewer than two monotone indices exist. -/
def get_direction_changes (signal : List ℚ) (filter_len : ℕ) : List ℕ :=
  if signal.length < filter_len then []
  else
    let filtered := (List.range (signal.length - filter_len)).filter (fun i =>
      ((List.range filter_len).all (fun j => decide (signal.getD (i+j+1) 0 < signal.getD (i+j) 0))) ||
      ((List.range filter_len).all (fun j => decide (signal.getD (i+j) 0 < signal.getD (i+j+1) 0))))
    if filtered.length < 2 then []
    else
      let direction := (filtered.zip filtered.tail).map (fun p =>
        if signal.getD p.2 0 < signal.getD p.1 0 then (-1 : ℤ) else 1)
      dc_loop (filtered.zip direction) (direction.headD 1) (filtered.foldl min (filtered.headD 0))

/-- The temporal merge guard of `Signal.merge_points`:
`max(1, round(fps * threshold_ms) / 1000)`. -/
def merge_time_threshold (fps : ℚ) : ℚ :=
  max 1 (((pyRound (fps * additional_points_merge_time_threshold_in_ms)) : ℚ) / 1000)

/-- The `distance < additional_points_merge_distance_threshold` test of
`Signal.merge_points`, carried out on squares
(`distance^2 = cr^2 / dst2` with `cr` the 2-D cross product and `dst2` the
squared segment length), which is exact for the positive threshold used.
The degenerate segment `dst2 = 0` yields numpy NaN distances, for which the
source comparison is False (so the candidate is inserted); that case is the
`dst2 ≠ 0` conjunct. -/
def merge_skip_by_distance (sp1 sp2 spidx : ℚ) (p1 p2 idx : ℤ) : Bool :=
  let lo := min sp1 sp2
  let hi := max sp1 sp2
  let u := (hi - lo) * ((idx : ℚ) - (p1 : ℚ)) / ((p2 : ℚ) - (p1 : ℚ)) + lo
  let dst2 := (hi - lo)^2 + (sp2 - sp1)^2
  let cr := (hi - lo) * (sp1 - spidx) - (sp2 - sp1) * (lo - u)
  decide (dst2 ≠ 0 ∧ cr^2 < additional_points_merge_distance_threshold^2 * dst2)

/-- One iteration of the `Signal.merge_points` loop for a candidate `idx`:
skip when a merged point is temporally close, look up the sorted neighbours
with `find_nearest` (raising on an empty list), skip when `p1 ≥ p2` or the
candidate is geometrically close to the segment, otherwise `bisect.insort`. -/
def merge_step (fps : ℚ) (signal : List ℚ) (merged : List ℤ) (idx : ℤ) :
    Option (List ℤ) :=
  if 0 < (merged.filter (fun x =>
      decide (|(idx : ℚ) - (x : ℚ)| ≤ merge_time_threshold fps))).length then
    some merged
  else
    (find_nearest merged idx "left").bind (fun p1 =>
      (find_nearest merged idx "right").bind (fun p2 =>
        if p2 ≤ p1 then some merged
        else
          (pyGet signal p1).bind (fun sp1 =>
            (pyGet signal p2).bind (fun sp2 =>
              (pyGet signal idx).bind (fun spidx =>
                if merge_skip_by_distance sp1 sp2 spidx p1 p2 idx then some merged
                else some (merged.orderedInsert (· ≤ ·) idx))))))

/-- Embedding of `Signal.merge_points` from `signal.py`: start from a sorted copy of the
base points and fold the candidate loop over the additional points
(`orderedInsert` produces the same list value as `bisect.insort`). -/
def merge_points (fps : ℚ) (signal : List ℚ) (base_points additional_points : List ℤ) :
    Option (List ℤ) :=
  additional_points.foldl
    (fun acc idx => acc.bind (fun m => merge_step fps signal m idx))
    (some (base_points.insertionSort (· ≤ ·)))

/-- One iteration of the `Signal.categorize_points` loop:
`max` gets `idx` when `smoothed[idx] > avg[idx]`, else `min` gets it. -/
def categorize_step (smoothed avg : List ℚ) (g : List ℤ × List ℤ) (idx : ℤ) :
    Option (List ℤ × List ℤ) :=
  (pyGet smoothed idx).bind (fun sv =>
    (pyGet avg idx).bind (fun av =>
      if av < sv then some (g.1, g.2 ++ [idx]) else some (g.1 ++ [idx], g.2)))

/-- Embedding of `Signal.categorize_points` from `signal.py`: group the given points into
(`min` group, `max` group) by comparing `moving_average(signal, 3)` with
`moving_average(signal, round(fps * avg_sec_for_local_min_max_extraction))`
(the Signal's fps is positive at every call site, so `toNat` is lossless). -/
def categorize_points (fps : ℚ) (signal : List ℚ) (points : List ℤ) :
    Option (List ℤ × List ℤ) :=
  points.foldl
    (fun acc idx => acc.bind (fun g =>
      categorize_step (moving_average signal 3)
        (moving_average signal (pyRound (fps * avg_sec_for_local_min_max_extraction)).toNat)
        g idx))
    (some ([], []))

/-- The loop of `Signal.get_high_second_derivative_points`: walk the
positions keeping the running argmax of the current above-threshold run
(`tmp_max_idx = -1` is modelled as `none`; ties move the candidate to the
later index) and emit it when the run ends; a run still open when the
positions are exhausted is never emitted. -/
def hsdLoop (a : List ℚ) (cond : ℕ → Bool) : List ℕ → Option ℕ → List ℕ
  | [], _ => []
  | pos :: rest, none =>
    if cond pos then hsdLoop a cond rest (some pos)
    else hsdLoop a cond rest none
  | pos :: rest, some t =>
    if cond pos then
      (if a.getD t 0 ≤ a.getD pos 0 then hsdLoop a cond rest (some pos)
       else hsdLoop a cond rest (some t))
    else t :: hsdLoop a cond rest none

/-- Model of `abs(np.array(second_derivative(signal)))` with the default window 1. -/
def hsd_abs (signal : List ℚ) : List ℚ :=
  (second_derivative signal 1).map (fun v => |v|)

/-- The squared moving standard deviation used by
`get_high_second_derivative_points`. -/
def hsd_var (fps : ℚ) (signal : List ℚ) : List ℚ :=
  moving_pop_variance (second_derivative signal 1)
    (pyRound (fps * avg_sec_for_local_min_max_extraction)).toNat

/-- The run condition `abs(dx2_abs[pos]) > alpha * std[pos]` of
`get_high_second_derivative_points`.  Since `dx2_abs[pos] ≥ 0` (the outer
`abs` in the source is a no-op on it) and the configured `alpha` is
nonnegative, the comparison is carried on squares
(`std[pos]^2` is `hsd_var`). -/
def hsdCond (fps : ℚ) (signal : List ℚ) (alpha : ℚ) (pos : ℕ) : Bool :=
  decide (alpha^2 * (hsd_var fps signal).getD pos 0 < ((hsd_abs signal).getD pos 0)^2)

/-- Embedding of `Signal.get_high_second_derivative_points` from `signal.py`. -/
def get_high_second_derivative_points (fps : ℚ) (signal : List ℚ) (alpha : ℚ) :
    List ℕ :=
  hsdLoop (hsd_abs signal) (hsdCond fps signal alpha)
    (List.range (hsd_abs signal).length) none

/-- The argmax over a run that the hsd loop computes: the last position of
the run maximising `a` (ties move right). -/
def runArgmax (a : List ℚ) (run : List ℕ) : ℕ :=
  match run with
  | [] => 0
  | h :: t => t.foldl (fun x p => if a.getD x 0 ≤ a.getD p 0 then p else x) h

/-- Formalisation of the claim's "maximal contiguous runs" over a position
list, keeping only the runs that are terminated by a position failing `cond`
(`acc` holds the current run reversed); a run still open at the end of the
positions is dropped. -/
def runsFin (cond : ℕ → Bool) : List ℕ → List ℕ → List (List ℕ)
  | [], _ => []
  | p :: ps, acc =>
    if cond p then runsFin cond ps (p :: acc)
    else if acc = [] then runsFin cond ps []
    else acc.reverse :: runsFin cond ps []

/-- Like `runsFin` but a final still-open run is also included: the full set
of maximal contiguous runs of `cond`-positions. -/
def runsAll (cond : ℕ → Bool) : List ℕ → List ℕ → List (List ℕ)
  | [], acc => if acc = [] then [] else [acc.reverse]
  | p :: ps, acc =>
    if cond p then runsAll cond ps (p :: acc)
    else if acc = [] then runsAll cond ps []
    else acc.reverse :: runsAll cond ps []

/-- The candidate (`tmp_max_idx`) corresponding to a reversed run
accumulator: none for an empty accumulator, the run's argmax otherwise. -/
def accCand (a : List ℚ) (acc : List ℕ) : Option ℕ :=
  if acc = [] then none else some (runArgmax a acc.reverse)

/-- Sequentially index a signal at a list of positions, failing on the first
`IndexError`. -/
def optGets (signal : List ℚ) : List ℤ → Option (List ℚ)
  | [] => some []
  | i :: rest =>
    (pyGet signal i).bind (fun v => (optGets signal rest).map (fun vs => v :: vs))

/-- The body of the `get_edge_points` pair loop for adjacent sorted base
points `a < b` (for `a = b` the distance list is empty and Python's
`max([])` raises, modelled as `none`): squared perpendicular distances of
the remapped points to the segment, emitting `a + argmax` when the maximal
distance exceeds the (nonnegative) threshold — compared on squares.  The
degenerate segment (`dst2 = 0`) produces numpy NaN distances whose
comparisons are all False, so it emits nothing. -/
def edge_pair_points (signal : List ℚ) (threshold : ℚ) (a b : ℤ) :
    Option (List ℤ) :=
  (pyGet signal a).bind (fun sa =>
    (pyGet signal b).bind (fun sb =>
      (optGets signal ((List.range (b - a).toNat).map (fun k => a + (k : ℤ)))).bind
        (fun svals =>
          if svals.length = 0 then none
          else
            let lo := min sa sb
            let hi := max sa sb
            let dst2 := (hi - lo)^2 + (sb - sa)^2
            let d2 := (List.range svals.length).map (fun k =>
              ((hi - lo) * (sa - svals.getD k 0) -
                (sb - sa) * (lo -
                  ((hi - lo) * (((a : ℚ) + (k : ℚ)) - (a : ℚ)) / ((b : ℚ) - (a : ℚ)) + lo)))^2
                / dst2)
            if dst2 = 0 then some []
            else if decide (threshold^2 < pyListMax d2) then
              some [a + (d2.indexOf (pyListMax d2) : ℤ)]
            else some [])))

/-- The pair loop of `get_edge_points`, concatenating the emitted edge
points over the adjacent pairs of the sorted base points. -/
def edge_loop (signal : List ℚ) (threshold : ℚ) : List (ℤ × ℤ) → Option (List ℤ)
  | [] => some []
  | (a, b) :: rest =>
    (edge_pair_points signal threshold a b).bind (fun pts =>
      (edge_loop signal threshold rest).map (fun more => pts ++ more))

/-- Embedding of `Signal.get_edge_points` from `signal.py`.  Python's `base_points.sort()`
mutates the caller's list in place, so the embedding returns the final state
of `base_points` as the second component next to the function's result
(`insertionSort` models the stable ascending `list.sort`). -/
def get_edge_points (signal : List ℚ) (base_points : List ℤ) (threshold : ℚ) :
    Option (List ℤ) × List ℤ :=
  if base_points.length < 2 then (some [], base_points)
  else
    (edge_loop signal threshold
        ((base_points.insertionSort (· ≤ ·)).zip (base_points.insertionSort (· ≤ ·)).tail),
      base_points.insertionSort (· ≤ ·))

/-! ## Theorems -/

/-! ### Claim C3: `moving_average(x, 1)` -/

/-- Claim C3 counterexample: `moving_average([0, 1], 1)` is not `[0, 1]`; the
length-2 input falls into the `len(x) <= w+1` branch, which returns the
constant mean `[1/2, 1/2]` before the `w == 1` identity branch is reached. -/
theorem claim_C3_counterexample :
    moving_average [(0:ℚ), 1] 1 = [1/2, 1/2] ∧ moving_average [(0:ℚ), 1] 1 ≠ [0, 1] := by
  constructor <;> norm_num [moving_average, listMean, List.replicate_succ]

/-- Claim C3 (amended): `moving_average(x, 1) = x` for every list whose length
is not 2.  (Length 0 returns `[]`, length 1 returns the singleton mean which
equals the input, length 2 hits the constant-mean branch, and length ≥ 3
reaches the `w == 1` identity branch.) -/
theorem claim_C3_amended (x : List ℚ) (h : x.length ≠ 2) : moving_average x 1 = x := by
  match x, h with
  | [], _ => rfl
  | [a], _ =>
    show moving_average [a] 1 = [a]
    simp [moving_average, listMean]
  | a :: b :: c :: t, _ =>
    have hgt : ¬ (a :: b :: c :: t).length ≤ 1 + 1 := by simp
    rw [moving_average, if_neg (by simp), if_neg hgt, if_pos rfl]
  | [a, b], h => exact absurd rfl h

/-- Claim C3 amended, witnessed at `x = [1, 2, 3]`. -/
theorem claim_C3_witness :
    ([(1:ℚ), 2, 3].length ≠ 2) ∧ moving_average [(1:ℚ), 2, 3] 1 = [1, 2, 3] :=
  ⟨by decide, claim_C3_amended [1, 2, 3] (by decide)⟩

/-! ### Bounds for `pyListMin`, `pyListMax` and `scale` -/

theorem foldl_min_le_init (l : List ℚ) (init : ℚ) : l.foldl min init ≤ init := by
  induction l generalizing init with
  | nil => exact le_refl _
  | cons a t ih => exact le_trans (ih (min init a)) (min_le_left _ _)

theorem foldl_min_le_mem (l : List ℚ) : ∀ (init x : ℚ), x ∈ l → l.foldl min init ≤ x := by
  induction l with
  | nil => intro _ _ hx; cases hx
  | cons a t ih =>
    intro init x hx
    rcases List.mem_cons.mp hx with rfl | hxt
    · exact le_trans (foldl_min_le_init t (min init x)) (min_le_right _ _)
    · exact ih (min init a) x hxt

theorem init_le_foldl_max (l : List ℚ) (init : ℚ) : init ≤ l.foldl max init := by
  induction l generalizing init with
  | nil => exact le_refl _
  | cons a t ih => exact le_trans (le_max_left _ _) (ih (max init a))

theorem mem_le_foldl_max (l : List ℚ) : ∀ (init x : ℚ), x ∈ l → x ≤ l.foldl max init := by
  induction l with
  | nil => intro _ _ hx; cases hx
  | cons a t ih =>
    intro init x hx
    rcases List.mem_cons.mp hx with rfl | hxt
    · exact le_trans (le_max_right _ _) (init_le_foldl_max t (max init x))
    · exact ih (max init a) x hxt

theorem pyListMin_le (l : List ℚ) (x : ℚ) (hx : x ∈ l) : pyListMin l ≤ x :=
  foldl_min_le_mem l (l.headD 0) x hx

theorem le_pyListMax (l : List ℚ) (x : ℚ) (hx : x ∈ l) : x ≤ pyListMax l :=
  mem_le_foldl_max l (l.headD 0) x hx

/-- Every value produced by a successful `scale(signal, lower, upper)` lies in
`[lower, upper]` (for `lower ≤ upper`). -/
theorem scale_mem_range (signal : List ℚ) (lower upper : ℚ) (hlu : lower ≤ upper)
    (r : List ℚ) (hr : scale signal lower upper = some r) :
    ∀ v ∈ r, lower ≤ v ∧ v ≤ upper := by
  intro v hv
  unfold scale at hr
  split_ifs at hr with h0 h1 hz
  · -- empty signal
    rw [Option.some_inj] at hr
    subst hr
    rw [List.length_eq_zero] at h0
    subst h0
    cases hv
  · -- length-1 signal: result is [lower]
    rw [Option.some_inj] at hr
    subst hr
    rcases List.mem_singleton.mp hv with rfl
    exact ⟨le_refl _, hlu⟩
  · -- general branch with a nonconstant signal
    rw [Option.some_inj] at hr
    subst hr
    rcases List.mem_map.mp hv with ⟨x, hxmem, rfl⟩
    have hmn : pyListMin signal ≤ x := pyListMin_le signal x hxmem
    have hmx : x ≤ pyListMax signal := le_pyListMax signal x hxmem
    have hlt : pyListMin signal < pyListMax signal := by
      rcases lt_or_eq_of_le (le_trans hmn hmx) with h | h
      · exact h
      · exact absurd (by rw [h]; ring) hz
    have hpos : (0:ℚ) < pyListMax signal - pyListMin signal := by linarith
    have h0q : 0 ≤ (x - pyListMin signal) / (pyListMax signal - pyListMin signal) :=
      div_nonneg (by linarith) (le_of_lt hpos)
    have hq1 : (x - pyListMin signal) / (pyListMax signal - pyListMin signal) ≤ 1 := by
      rw [div_le_one hpos]; linarith
    have key : (upper - lower) * (x - pyListMin signal) / (pyListMax signal - pyListMin signal)
        = (upper - lower) * ((x - pyListMin signal) / (pyListMax signal - pyListMin signal)) := by
      ring
    constructor
    · rw [key]
      nlinarith [mul_nonneg (sub_nonneg.mpr hlu) h0q]
    · rw [key]
      nlinarith [mul_le_mul_of_nonneg_left hq1 (sub_nonneg.mpr hlu)]

theorem scorePair_eq_some (sx sy rx ry : List ℚ)
    (h : scorePair sx sy = some (rx, ry)) :
    scale sx 0 100 = some rx ∧ scale sy 0 100 = some ry := by
  unfold scorePair at h
  rcases hx : scale sx 0 100 with _ | rx'
  · rw [hx] at h; cases h
  · rw [hx] at h
    rcases hy : scale sy 0 100 with _ | ry'
    · rw [hy] at h; cases h
    · rw [hy] at h
      simp only [Option.some_bind, Option.map_some', Option.some_inj, Prod.mk.injEq] at h
      constructor
      · rw [h.1]
      · rw [h.2]

/-! ### Claim C2: score range after `calculate_score` -/

/-- Claim C2 counterexample: two equal-length non-empty constant trajectories
make both raw difference scores constant of length 2, so `scale` divides by
`max - min = 0` and `calculate_score` raises `ZeroDivisionError` instead of
producing values in `[0, 100]`. -/
theorem claim_C2_counterexample :
    calculate_score true [((0:ℚ),0,1,1), ((0:ℚ),0,1,1)] [((0:ℚ),0,1,1), ((0:ℚ),0,1,1)]
      = none := by
  norm_num [calculate_score, scorePair, scale, bboxX, bboxY, pyListMin, pyListMax]

/-- Claim C2 (amended): whenever `calculate_score` succeeds (i.e. neither raw
difference signal is constant of length ≥ 2), every element of `score.x` and
of `score.y` lies in the closed interval `[0, 100]`. -/
theorem claim_C2_amended (track_men : Bool) (woman men : List Bbox) (rx ry : List ℚ)
    (h : calculate_score track_men woman men = some (rx, ry)) :
    (∀ v ∈ rx, 0 ≤ v ∧ v ≤ 100) ∧ (∀ v ∈ ry, 0 ≤ v ∧ v ≤ 100) := by
  unfold calculate_score at h
  have range100 : (0:ℚ) ≤ 100 := by norm_num
  split_ifs at h with htm
  · rcases scorePair_eq_some _ _ _ _ h with ⟨hx, hy⟩
    exact ⟨scale_mem_range _ _ _ range100 _ hx, scale_mem_range _ _ _ range100 _ hy⟩
  · match woman, h with
    | _ :: _, h =>
      rcases scorePair_eq_some _ _ _ _ h with ⟨hx, hy⟩
      exact ⟨scale_mem_range _ _ _ range100 _ hx, scale_mem_range _ _ _ range100 _ hy⟩

/-- Claim C2 amended, witnessed on a concrete pair of length-2 trajectories
whose scores scale to `[100, 0]` and `[0, 100]`. -/
theorem claim_C2_witness :
    (∀ v ∈ [(100:ℚ), 0], 0 ≤ v ∧ v ≤ 100) ∧ (∀ v ∈ [(0:ℚ), 100], 0 ≤ v ∧ v ≤ 100) :=
  claim_C2_amended true [((0:ℚ),0,1,1), ((1:ℚ),2,1,1)] [((2:ℚ),0,1,1), ((0:ℚ),5,1,1)]
    [100, 0] [0, 100]
    (by norm_num [calculate_score, scorePair, scale, bboxX, bboxY, pyListMin, pyListMax])

/-! ### Claim C1: truncation on tracker-lost abort -/

/-- Claim C1: evaluation at the failing input.  With `skip_frames k = 0` the
tracker-lost path calls `delete_last_tracking_predictions((k+1)*3)`; on
trajectories of length 4 (which exceeds `3·(k+1) = 3`) it leaves 2 entries,
i.e. it removes only `3·(k+1) - 1 = 2` tail entries, not the `3·(k+1) = 3`
the specification states. -/
theorem claim_C1_eval :
    (delete_last_tracking_predictions true
      (List.replicate 4 ((0:ℚ),0,0,0)) (List.replicate 4 ((0:ℚ),0,0,0)) ((0+1)*3)).1.length = 2
    ∧ (delete_last_tracking_predictions true
      (List.replicate 4 ((0:ℚ),0,0,0)) (List.replicate 4 ((0:ℚ),0,0,0)) ((0+1)*3)).2.length = 2 := by
  constructor <;> norm_num [delete_last_tracking_predictions] <;> decide

/-! ### Claim C8: `apply_shift` -/

/-- Claim C8: for a valid frame index and a `min`/`max` position label,
`apply_shift` stays inside `[start_frame, start_frame + len(score) - 1]`;
for direction `y` it returns `start_frame + i + shift` exactly when
`i + shift ∈ [0, len(score))` and `start_frame + i` otherwise, and for
direction `x` it always returns `start_frame + i`. -/
theorem claim_C8_thm (p : FunscriptGeneratorParameter) (score_y : List ℚ)
    (i : ℤ) (position : String) (h0 : 0 ≤ i) (hlen : i < (score_y.length : ℤ))
    (hpos : position = "min" ∨ position = "max") :
    (p.start_frame ≤ apply_shift p score_y i position ∧
      apply_shift p score_y i position ≤ p.start_frame + (score_y.length : ℤ) - 1) ∧
    (p.direction = "y" → apply_shift p score_y i position =
      (if 0 ≤ i + shiftFor p position ∧ i + shiftFor p position < (score_y.length : ℤ)
       then p.start_frame + i + shiftFor p position
       else p.start_frame + i)) ∧
    (p.direction = "x" → apply_shift p score_y i position = p.start_frame + i) := by
  rcases hpos with rfl | rfl
  · have hsf : shiftFor p "min" = p.shift_bottom_points := by
      unfold shiftFor; rw [if_neg (by decide)]
    unfold apply_shift
    rw [if_neg (fun hc => absurd hc.1 (by decide))]
    by_cases h2 : p.direction ≠ "x" ∧ i ≥ -1 * p.shift_bottom_points ∧
        i + p.shift_bottom_points < (score_y.length : ℤ)
    · obtain ⟨hdir, hge, hlt⟩ := h2
      rw [if_pos ⟨Or.inl rfl, hdir, hge, hlt⟩]
      refine ⟨⟨by omega, by omega⟩, ?_, fun hx => absurd hx hdir⟩
      intro _
      rw [hsf, if_pos ⟨by omega, hlt⟩]
    · rw [if_neg (fun hc => h2 hc.2)]
      refine ⟨⟨by omega, by omega⟩, ?_, fun _ => rfl⟩
      intro hy
      rw [hsf, if_neg]
      intro hc
      exact h2 ⟨by rw [hy]; decide, by omega, hc.2⟩
  · have hsf : shiftFor p "max" = p.shift_top_points := by
      unfold shiftFor; rw [if_pos rfl]
    unfold apply_shift
    by_cases h2 : p.direction ≠ "x" ∧ i ≥ -1 * p.shift_top_points ∧
        i + p.shift_top_points < (score_y.length : ℤ)
    · obtain ⟨hdir, hge, hlt⟩ := h2
      rw [if_pos ⟨Or.inl rfl, hdir, hge, hlt⟩]
      refine ⟨⟨by omega, by omega⟩, ?_, fun hx => absurd hx hdir⟩
      intro _
      rw [hsf, if_pos ⟨by omega, hlt⟩]
    · rw [if_neg (fun hc => h2 hc.2),
        if_neg (fun hc => absurd hc.1 (by decide))]
      refine ⟨⟨by omega, by omega⟩, ?_, fun _ => rfl⟩
      intro hy
      rw [hsf, if_neg]
      intro hc
      exact h2 ⟨by rw [hy]; decide, by omega, hc.2⟩

/-- Claim C8 witnessed at `start_frame = 100`, direction `y`,
`shift_top_points = 2`, index `3` in a length-6 score. -/
theorem claim_C8_witness :
    ((FunscriptGeneratorParameter.mk 100 "y" 2 (-1)).start_frame ≤
        apply_shift (FunscriptGeneratorParameter.mk 100 "y" 2 (-1))
          (List.replicate 6 (0:ℚ)) 3 "max" ∧
      apply_shift (FunscriptGeneratorParameter.mk 100 "y" 2 (-1))
          (List.replicate 6 (0:ℚ)) 3 "max" ≤
        (FunscriptGeneratorParameter.mk 100 "y" 2 (-1)).start_frame +
          ((List.replicate 6 (0:ℚ)).length : ℤ) - 1) ∧
    ((FunscriptGeneratorParameter.mk 100 "y" 2 (-1)).direction = "y" →
      apply_shift (FunscriptGeneratorParameter.mk 100 "y" 2 (-1))
          (List.replicate 6 (0:ℚ)) 3 "max" =
        (if 0 ≤ 3 + shiftFor (FunscriptGeneratorParameter.mk 100 "y" 2 (-1)) "max" ∧
            3 + shiftFor (FunscriptGeneratorParameter.mk 100 "y" 2 (-1)) "max" <
              ((List.replicate 6 (0:ℚ)).length : ℤ)
         then (FunscriptGeneratorParameter.mk 100 "y" 2 (-1)).start_frame + 3 +
            shiftFor (FunscriptGeneratorParameter.mk 100 "y" 2 (-1)) "max"
         else (FunscriptGeneratorParameter.mk 100 "y" 2 (-1)).start_frame + 3)) ∧
    ((FunscriptGeneratorParameter.mk 100 "y" 2 (-1)).direction = "x" →
      apply_shift (FunscriptGeneratorParameter.mk 100 "y" 2 (-1))
          (List.replicate 6 (0:ℚ)) 3 "max" =
        (FunscriptGeneratorParameter.mk 100 "y" 2 (-1)).start_frame + 3) :=
  claim_C8_thm (FunscriptGeneratorParameter.mk 100 "y" 2 (-1))
    (List.replicate 6 (0:ℚ)) 3 "max" (by decide) (by decide) (Or.inr rfl)

/-! ### Claim C9: `find_nearest` -/

theorem fn_loop_mem {α : Type} [LinearOrder α] (array : List α) (value : α)
    (stop : α → α → Bool) :
    ∀ (idxs : List ℕ) (pos : ℕ),
      fn_loop array value stop idxs pos = pos ∨ fn_loop array value stop idxs pos ∈ idxs := by
  intro idxs
  induction idxs with
  | nil => intro pos; exact Or.inl rfl
  | cons i rest ih =>
    intro pos
    simp only [fn_loop]
    split_ifs with hs
    · exact Or.inl rfl
    · rcases ih i with h | h
      · rw [h]; exact Or.inr (List.mem_cons_self i rest)
      · exact Or.inr (List.mem_cons_of_mem i h)

/-- Claim C9 counterexample: the side string `"LEFT"` is neither `'left'` nor
`'right'`, yet `find_nearest` succeeds on it (the source lowercases the side
first), so "raises an error iff side is neither 'left' nor 'right'" fails. -/
theorem claim_C9_counterexample :
    find_nearest [(1:ℚ)] 0 "LEFT" = some 1 ∧
      ("LEFT" : String) ≠ "left" ∧ ("LEFT" : String) ≠ "right" := by
  refine ⟨?_, by decide, by decide⟩
  decide

/-- Claim C9 (amended): on a non-empty sorted list, `find_nearest` raises iff
the lowercased side is neither `'left'` nor `'right'`, and whenever it
returns a value, that value is an element of the list. -/
theorem claim_C9_amended {α : Type} [LinearOrder α] (array : List α) (value : α)
    (side : String) (hne : array ≠ []) :
    (find_nearest array value side = none ↔
      ¬(pyLower side = "left" ∨ pyLower side = "right")) ∧
    (∀ r, find_nearest array value side = some r → r ∈ array) := by
  have hlen : 0 < array.length := List.length_pos.mpr hne
  unfold find_nearest
  split_ifs with h1 h2
  · have hp : fn_loop array value (fun v a => decide (v ≤ a))
        (List.range array.length) 0 < array.length := by
      rcases fn_loop_mem array value (fun v a => decide (v ≤ a))
          (List.range array.length) 0 with h | h
      · rw [h]; exact hlen
      · exact List.mem_range.mp h
    constructor
    · rw [List.get?_eq_get hp]
      simp [h1]
    · intro r hr
      exact List.get?_mem hr
  · have hp : fn_loop array value (fun v a => decide (a ≤ v))
        (List.range array.length).reverse (array.length - 1) < array.length := by
      rcases fn_loop_mem array value (fun v a => decide (a ≤ v))
          (List.range array.length).reverse (array.length - 1) with h | h
      · rw [h]; omega
      · exact List.mem_range.mp (List.mem_reverse.mp h)
    constructor
    · rw [List.get?_eq_get hp]
      simp [h2]
    · intro r hr
      exact List.get?_mem hr
  · constructor
    · simp [h1, h2]
    · intro r hr
      cases hr

/-- Claim C9 amended, witnessed on `array = [1, 2]`, `value = 0`,
`side = "right"`. -/
theorem claim_C9_witness :
    (find_nearest [(1:ℚ), 2] 0 "right" = none ↔
      ¬(pyLower "right" = "left" ∨ pyLower "right" = "right")) ∧
    (∀ r, find_nearest [(1:ℚ), 2] 0 "right" = some r → r ∈ [(1:ℚ), 2]) :=
  claim_C9_amended [(1:ℚ), 2] 0 "right" (by decide)

/-! ### Claim C5: `get_direction_changes` on S1 -/

/-- Claim C5: on the signal `[0,1,2,3,2,1,0,1,2,3,2,1,0]` with
`filter_len = 2` the direction changes are exactly at `3`, `6` and `9`
(here `min(M) = 0`, so the `+ min(M)` offset is vacuous). -/
theorem claim_C5_eval :
    get_direction_changes [(0:ℚ),1,2,3,2,1,0,1,2,3,2,1,0] 2 = [3, 6, 9] := by
  decide

/-! ### Claim C4: `merge_points` invariants -/

theorem foldl_bind_none {σ ι : Type} (f : σ → ι → Option σ) :
    ∀ (l : List ι), l.foldl (fun a x => a.bind (fun s => f s x)) none = none := by
  intro l
  induction l with
  | nil => rfl
  | cons x t ih => rw [List.foldl_cons, Option.none_bind]; exact ih

/-- Each `merge_points` loop iteration either keeps the merged list or
inserts the candidate in order: sortedness, the elements, and the
length-plus-one bound are preserved. -/
theorem merge_step_invariant (fps : ℚ) (signal : List ℚ) (merged : List ℤ) (idx : ℤ)
    (r : List ℤ) (hs : List.Sorted (· ≤ ·) merged)
    (h : merge_step fps signal merged idx = some r) :
    List.Sorted (· ≤ ·) r ∧ (∀ b ∈ merged, b ∈ r) ∧ r.length ≤ merged.length + 1 := by
  unfold merge_step at h
  split_ifs at h with h1
  · rw [Option.some_inj] at h; subst h
    exact ⟨hs, fun b hb => hb, Nat.le_succ _⟩
  · rcases hp1 : find_nearest merged idx "left" with _ | p1 <;> rw [hp1] at h
    · rw [Option.none_bind] at h; cases h
    · rw [Option.some_bind] at h
      rcases hp2 : find_nearest merged idx "right" with _ | p2 <;> rw [hp2] at h
      · rw [Option.none_bind] at h; cases h
      · rw [Option.some_bind] at h
        split_ifs at h with hcmp
        · rw [Option.some_inj] at h; subst h
          exact ⟨hs, fun b hb => hb, Nat.le_succ _⟩
        · rcases hg1 : pyGet signal p1 with _ | sp1 <;> rw [hg1] at h
          · rw [Option.none_bind] at h; cases h
          · rw [Option.some_bind] at h
            rcases hg2 : pyGet signal p2 with _ | sp2 <;> rw [hg2] at h
            · rw [Option.none_bind] at h; cases h
            · rw [Option.some_bind] at h
              rcases hg3 : pyGet signal idx with _ | sp3 <;> rw [hg3] at h
              · rw [Option.none_bind] at h; cases h
              · rw [Option.some_bind] at h
                split_ifs at h with hdist
                · rw [Option.some_inj] at h; subst h
                  exact ⟨hs, fun b hb => hb, Nat.le_succ _⟩
                · rw [Option.some_inj] at h; subst h
                  refine ⟨List.Sorted.orderedInsert idx merged hs, ?_, ?_⟩
                  · intro b hb
                    exact (List.mem_orderedInsert (· ≤ ·)).mpr (Or.inr hb)
                  · exact le_of_eq (List.orderedInsert_length (· ≤ ·) merged idx)

theorem merge_fold_invariant (fps : ℚ) (signal : List ℚ) :
    ∀ (E m r : List ℤ), List.Sorted (· ≤ ·) m →
      E.foldl (fun acc idx => acc.bind (fun mm => merge_step fps signal mm idx))
        (some m) = some r →
      List.Sorted (· ≤ ·) r ∧ (∀ b ∈ m, b ∈ r) ∧ r.length ≤ m.length + E.length := by
  intro E
  induction E with
  | nil =>
    intro m r hs h
    rw [List.foldl_nil, Option.some_inj] at h
    subst h
    exact ⟨hs, fun b hb => hb, le_refl _⟩
  | cons e E ih =>
    intro m r hs h
    rw [List.foldl_cons, Option.some_bind] at h
    rcases hstep : merge_step fps signal m e with _ | m' <;> rw [hstep] at h
    · rw [foldl_bind_none] at h; cases h
    · obtain ⟨hs', hsub', hlen'⟩ := merge_step_invariant fps signal m e m' hs hstep
      obtain ⟨hsr, hsubr, hlenr⟩ := ih m' r hs' h
      refine ⟨hsr, fun b hb => hsubr b (hsub' b hb), ?_⟩
      simp only [List.length_cons]
      omega

/-- Claim C4: whenever `merge_points(s, B, E)` returns (no exception was
raised), the result is sorted ascending, contains every element of the base
points `B`, and has length at most `len(B) + len(E)` (at most one element is
inserted per additional point). -/
theorem claim_C4_thm (fps : ℚ) (signal : List ℚ) (B E : List ℤ) (r : List ℤ)
    (h : merge_points fps signal B E = some r) :
    List.Sorted (· ≤ ·) r ∧ (∀ b ∈ B, b ∈ r) ∧ r.length ≤ B.length + E.length := by
  unfold merge_points at h
  obtain ⟨hs, hsub, hlen⟩ := merge_fold_invariant fps signal E
    (B.insertionSort (· ≤ ·)) r (List.sorted_insertionSort (· ≤ ·) B) h
  refine ⟨hs, ?_, ?_⟩
  · intro b hb
    exact hsub b ((List.perm_insertionSort (· ≤ ·) B).mem_iff.mpr hb)
  · rw [(List.perm_insertionSort (· ≤ ·) B).length_eq] at hlen
    exact hlen

/-- Claim C4 witnessed on `B = [2, 0]`, `E = []`: the merge returns the
sorted copy `[0, 2]`. -/
theorem claim_C4_witness :
    List.Sorted (· ≤ ·) [(0:ℤ), 2] ∧ (∀ b ∈ [(2:ℤ), 0], b ∈ [(0:ℤ), 2]) ∧
      [(0:ℤ), 2].length ≤ [(2:ℤ), 0].length + ([] : List ℤ).length :=
  claim_C4_thm 1 [0, 0, 0] [2, 0] [] [0, 2] (by decide)

/-! ### Claim C7: `categorize_points` -/

theorem categorize_fold_invariant (smoothed avg : List ℚ) :
    ∀ (points : List ℤ) (acc g : List ℤ × List ℤ),
      points.foldl (fun a idx => a.bind (fun g2 => categorize_step smoothed avg g2 idx))
        (some acc) = some g →
      ((∀ i ∈ acc.1, ∃ sv av, pyGet smoothed i = some sv ∧ pyGet avg i = some av ∧ sv ≤ av) ∧
       (∀ i ∈ acc.2, ∃ sv av, pyGet smoothed i = some sv ∧ pyGet avg i = some av ∧ av < sv)) →
      ((∀ i ∈ g.1, ∃ sv av, pyGet smoothed i = some sv ∧ pyGet avg i = some av ∧ sv ≤ av) ∧
       (∀ i ∈ g.2, ∃ sv av, pyGet smoothed i = some sv ∧ pyGet avg i = some av ∧ av < sv)) := by
  intro points
  induction points with
  | nil =>
    intro acc g h hacc
    rw [List.foldl_nil, Option.some_inj] at h
    subst h
    exact hacc
  | cons idx rest ih =>
    intro acc g h hacc
    rw [List.foldl_cons, Option.some_bind] at h
    rcases hstep : categorize_step smoothed avg acc idx with _ | acc' <;> rw [hstep] at h
    · rw [foldl_bind_none] at h; cases h
    · refine ih acc' g h ?_
      unfold categorize_step at hstep
      rcases hsv : pyGet smoothed idx with _ | sv <;> rw [hsv] at hstep
      · rw [Option.none_bind] at hstep; cases hstep
      · rw [Option.some_bind] at hstep
        rcases hav : pyGet avg idx with _ | av <;> rw [hav] at hstep
        · rw [Option.none_bind] at hstep; cases hstep
        · rw [Option.some_bind] at hstep
          split_ifs at hstep with hlt
          · rw [Option.some_inj] at hstep; subst hstep
            refine ⟨hacc.1, ?_⟩
            intro i hi
            rcases List.mem_append.mp hi with hi | hi
            · exact hacc.2 i hi
            · rcases List.mem_singleton.mp hi with rfl
              exact ⟨sv, av, hsv, hav, hlt⟩
          · rw [Option.some_inj] at hstep; subst hstep
            refine ⟨?_, hacc.2⟩
            intro i hi
            rcases List.mem_append.mp hi with hi | hi
            · exact hacc.1 i hi
            · rcases List.mem_singleton.mp hi with rfl
              exact ⟨sv, av, hsv, hav, not_lt.mp hlt⟩

/-- Claim C7 counterexample: on the constant signal `[5,5,5,5,5]` with
`fps = 1`, the point `2` is put into the `min` group, yet the raw score at 2
equals the moving average at 2 (both are 5), so `score[i] < moving_avg[i]`
fails for a `min` point.  (The source compares the 3-smoothed signal, not
the raw score, and uses `≤` for the min side.) -/
theorem claim_C7_counterexample :
    categorize_points 1 [(5:ℚ),5,5,5,5] [2] = some ([2], []) ∧
    pyGet [(5:ℚ),5,5,5,5] 2 = some 5 ∧
    pyGet (moving_average [(5:ℚ),5,5,5,5]
      (pyRound (1 * avg_sec_for_local_min_max_extraction)).toNat) 2 = some 5 ∧
    ¬((5:ℚ) < 5) := by
  refine ⟨?_, by norm_num [pyGet, show ((2:ℤ).toNat) = 2 from by simp], ?_, by norm_num⟩
  · norm_num [categorize_points, categorize_step, moving_average, validConv, listMean,
      pyGet, pyRound, avg_sec_for_local_min_max_extraction,
      show ((2:ℤ).toNat) = 2 from by simp,
      List.range_succ, List.replicate_succ]
  · norm_num [moving_average, validConv, listMean, pyGet, pyRound,
      show ((2:ℤ).toNat) = 2 from by simp,
      avg_sec_for_local_min_max_extraction, List.range_succ, List.replicate_succ]

/-- Claim C7 (amended): whenever `categorize_points` returns, every index in
the `min` group satisfies `smoothed[i] ≤ avg[i]` and every index in the
`max` group satisfies `smoothed[i] > avg[i]`, where `smoothed` is the
3-sample moving average of the score and `avg` the moving average over a
window of `fps × avg_sec_for_local_min_max_extraction` samples. -/
theorem claim_C7_amended (fps : ℚ) (signal : List ℚ) (points : List ℤ)
    (g : List ℤ × List ℤ) (h : categorize_points fps signal points = some g) :
    (∀ i ∈ g.1, ∃ sv av, pyGet (moving_average signal 3) i = some sv ∧
      pyGet (moving_average signal
        (pyRound (fps * avg_sec_for_local_min_max_extraction)).toNat) i = some av ∧
      sv ≤ av) ∧
    (∀ i ∈ g.2, ∃ sv av, pyGet (moving_average signal 3) i = some sv ∧
      pyGet (moving_average signal
        (pyRound (fps * avg_sec_for_local_min_max_extraction)).toNat) i = some av ∧
      av < sv) := by
  refine categorize_fold_invariant _ _ points ([], []) g h ⟨?_, ?_⟩
  · intro i hi
    exact absurd hi (List.not_mem_nil i)
  · intro i hi
    exact absurd hi (List.not_mem_nil i)

/-- Claim C7 amended, witnessed at `fps = 1`, `signal = [5,5,5,5,5]`,
`points = [2]` (which lands in the `min` group). -/
theorem claim_C7_witness :
    (∀ i ∈ ([2] : List ℤ), ∃ sv av,
      pyGet (moving_average [(5:ℚ),5,5,5,5] 3) i = some sv ∧
      pyGet (moving_average [(5:ℚ),5,5,5,5]
        (pyRound (1 * avg_sec_for_local_min_max_extraction)).toNat) i = some av ∧
      sv ≤ av) ∧
    (∀ i ∈ ([] : List ℤ), ∃ sv av,
      pyGet (moving_average [(5:ℚ),5,5,5,5] 3) i = some sv ∧
      pyGet (moving_average [(5:ℚ),5,5,5,5]
        (pyRound (1 * avg_sec_for_local_min_max_extraction)).toNat) i = some av ∧
      av < sv) :=
  claim_C7_amended 1 [(5:ℚ),5,5,5,5] [2] ([2], [])
    (by norm_num [categorize_points, categorize_step, moving_average, validConv, listMean,
      pyGet, pyRound, avg_sec_for_local_min_max_extraction,
      show ((2:ℤ).toNat) = 2 from by simp,
      List.range_succ, List.replicate_succ])

/-! ### Claim C10: `get_edge_points` sorts its argument in place -/

/-- Claim C10: for `len(base_points) ≥ 2`, `get_edge_points` sorts the
caller's `base_points` list in place — the post-call state of that list
(the second component of the embedding) is ascending and is a permutation
of the input. -/
theorem claim_C10_thm (signal : List ℚ) (base_points : List ℤ) (threshold : ℚ)
    (h : 2 ≤ base_points.length) :
    List.Sorted (· ≤ ·) (get_edge_points signal base_points threshold).2 ∧
    (get_edge_points signal base_points threshold).2.Perm base_points := by
  unfold get_edge_points
  rw [if_neg (by omega)]
  exact ⟨List.sorted_insertionSort (· ≤ ·) base_points,
    List.perm_insertionSort (· ≤ ·) base_points⟩

/-- Claim C10 witnessed on `base_points = [2, 0]`. -/
theorem claim_C10_witness :
    (2 ≤ [(2:ℤ), 0].length) ∧
    (List.Sorted (· ≤ ·) (get_edge_points [(0:ℚ), 50, 0] [2, 0] 25).2 ∧
      (get_edge_points [(0:ℚ), 50, 0] [2, 0] 25).2.Perm [(2:ℤ), 0]) :=
  ⟨by decide, claim_C10_thm [(0:ℚ), 50, 0] [2, 0] 25 (by decide)⟩

/-! ### Claim C6: `get_high_second_derivative_points` -/

theorem hsdLoop_cons_none_pos (a : List ℚ) (cond : ℕ → Bool) (p : ℕ) (ps : List ℕ)
    (h : cond p = true) :
    hsdLoop a cond (p :: ps) none = hsdLoop a cond ps (some p) := by
  simp only [hsdLoop, h, if_true]

theorem hsdLoop_cons_none_neg (a : List ℚ) (cond : ℕ → Bool) (p : ℕ) (ps : List ℕ)
    (h : cond p = false) :
    hsdLoop a cond (p :: ps) none = hsdLoop a cond ps none := by
  simp only [hsdLoop, h, Bool.false_eq_true, if_false]

theorem hsdLoop_cons_some_pos (a : List ℚ) (cond : ℕ → Bool) (p : ℕ) (ps : List ℕ)
    (t : ℕ) (h : cond p = true) :
    hsdLoop a cond (p :: ps) (some t) =
      (if a.getD t 0 ≤ a.getD p 0 then hsdLoop a cond ps (some p)
       else hsdLoop a cond ps (some t)) := by
  simp only [hsdLoop, h, if_true]

theorem hsdLoop_cons_some_neg (a : List ℚ) (cond : ℕ → Bool) (p : ℕ) (ps : List ℕ)
    (t : ℕ) (h : cond p = false) :
    hsdLoop a cond (p :: ps) (some t) = t :: hsdLoop a cond ps none := by
  simp only [hsdLoop, h, Bool.false_eq_true, if_false]

theorem runsFin_cons_pos (cond : ℕ → Bool) (p : ℕ) (ps acc : List ℕ)
    (h : cond p = true) :
    runsFin cond (p :: ps) acc = runsFin cond ps (p :: acc) := by
  simp only [runsFin, h, if_true]

theorem runsFin_cons_neg (cond : ℕ → Bool) (p : ℕ) (ps acc : List ℕ)
    (h : cond p = false) :
    runsFin cond (p :: ps) acc =
      (if acc = [] then runsFin cond ps [] else acc.reverse :: runsFin cond ps []) := by
  simp only [runsFin, h, Bool.false_eq_true, if_false]

/-- Appending one position to a nonempty run folds it into the running
argmax exactly like the loop's candidate update. -/
theorem runArgmax_append (a : List ℚ) (run : List ℕ) (hne : run ≠ []) (p : ℕ) :
    runArgmax a (run ++ [p]) =
      (if a.getD (runArgmax a run) 0 ≤ a.getD p 0 then p else runArgmax a run) := by
  match run, hne with
  | h :: t, _ =>
    show (t ++ [p]).foldl (fun x q => if a.getD x 0 ≤ a.getD q 0 then q else x) h = _
    rw [List.foldl_append]
    rfl

/-- The hsd loop started with the candidate of the current (reversed) run
accumulator computes the argmaxes of the finished runs, in order. -/
theorem hsdLoop_eq_runsFin (a : List ℚ) (cond : ℕ → Bool) :
    ∀ (l acc : List ℕ),
      hsdLoop a cond l (accCand a acc) = (runsFin cond l acc).map (runArgmax a) := by
  intro l
  induction l with
  | nil => intro acc; rfl
  | cons p ps ih =>
    intro acc
    by_cases hc : cond p = true
    · rw [runsFin_cons_pos cond p ps acc hc]
      by_cases hacc : acc = []
      · subst hacc
        have e2 : accCand a [p] = some p := by
          unfold accCand
          rw [if_neg (by simp)]
          rfl
        have hih := ih [p]
        rw [e2] at hih
        rw [show accCand a ([] : List ℕ) = none from rfl,
          hsdLoop_cons_none_pos a cond p ps hc, hih]
      · have hrev : acc.reverse ≠ [] := by simpa using hacc
        have e1 : accCand a acc = some (runArgmax a acc.reverse) := by
          unfold accCand; rw [if_neg hacc]
        have e2 : accCand a (p :: acc) =
            some (if a.getD (runArgmax a acc.reverse) 0 ≤ a.getD p 0 then p
              else runArgmax a acc.reverse) := by
          unfold accCand
          rw [if_neg (by simp), List.reverse_cons, runArgmax_append a acc.reverse hrev p]
        have hih := ih (p :: acc)
        rw [e2] at hih
        rw [e1, hsdLoop_cons_some_pos a cond p ps _ hc]
        by_cases hle : a.getD (runArgmax a acc.reverse) 0 ≤ a.getD p 0
        · rw [if_pos hle]
          rw [if_pos hle] at hih
          exact hih
        · rw [if_neg hle]
          rw [if_neg hle] at hih
          exact hih
    · have hcf : cond p = false := by simpa using hc
      rw [runsFin_cons_neg cond p ps acc hcf]
      have hih := ih []
      rw [show accCand a ([] : List ℕ) = none from rfl] at hih
      by_cases hacc : acc = []
      · subst hacc
        rw [if_pos rfl, show accCand a ([] : List ℕ) = none from rfl,
          hsdLoop_cons_none_neg a cond p ps hcf, hih]
      · have e1 : accCand a acc = some (runArgmax a acc.reverse) := by
          unfold accCand; rw [if_neg hacc]
        rw [if_neg hacc, e1, hsdLoop_cons_some_neg a cond p ps _ hcf,
          List.map_cons, hih]

theorem runArgmax_foldl_mem (a : List ℚ) :
    ∀ (t : List ℕ) (h : ℕ),
      t.foldl (fun x p => if a.getD x 0 ≤ a.getD p 0 then p else x) h = h ∨
      t.foldl (fun x p => if a.getD x 0 ≤ a.getD p 0 then p else x) h ∈ t := by
  intro t
  induction t with
  | nil => intro h; exact Or.inl rfl
  | cons q t ih =>
    intro h
    rw [List.foldl_cons]
    rcases ih (if a.getD h 0 ≤ a.getD q 0 then q else h) with hh | hh
    · rw [hh]
      split_ifs with hle
      · exact Or.inr (List.mem_cons_self q t)
      · exact Or.inl rfl
    · exact Or.inr (List.mem_cons_of_mem q hh)

theorem runArgmax_foldl_ge (a : List ℚ) :
    ∀ (t : List ℕ) (h i : ℕ), (i = h ∨ i ∈ t) →
      a.getD i 0 ≤ a.getD (t.foldl (fun x p => if a.getD x 0 ≤ a.getD p 0 then p else x) h) 0 := by
  intro t
  induction t with
  | nil =>
    intro h i hi
    rcases hi with rfl | hi
    · exact le_refl _
    · cases hi
  | cons q t ih =>
    intro h i hi
    rw [List.foldl_cons]
    have hstep : a.getD h 0 ≤ a.getD (if a.getD h 0 ≤ a.getD q 0 then q else h) 0 ∧
        a.getD q 0 ≤ a.getD (if a.getD h 0 ≤ a.getD q 0 then q else h) 0 := by
      split_ifs with hle
      · exact ⟨hle, le_refl _⟩
      · exact ⟨le_refl _, le_of_lt (not_le.mp hle)⟩
    rcases hi with rfl | hi
    · exact le_trans hstep.1 (ih _ _ (Or.inl rfl))
    · rcases List.mem_cons.mp hi with rfl | hit
      · exact le_trans hstep.2 (ih _ _ (Or.inl rfl))
      · exact ih _ i (Or.inr hit)

/-- The run argmax is an element of a nonempty run. -/
theorem runArgmax_mem (a : List ℚ) (run : List ℕ) (hne : run ≠ []) :
    runArgmax a run ∈ run := by
  match run, hne with
  | h :: t, _ =>
    show t.foldl (fun x p => if a.getD x 0 ≤ a.getD p 0 then p else x) h ∈ h :: t
    rcases runArgmax_foldl_mem a t h with hh | hh
    · rw [hh]; exact List.mem_cons_self h t
    · exact List.mem_cons_of_mem h hh

/-- The run argmax dominates every element of the run. -/
theorem runArgmax_ge (a : List ℚ) (run : List ℕ) (i : ℕ) (hi : i ∈ run) :
    a.getD i 0 ≤ a.getD (runArgmax a run) 0 := by
  match run, hi with
  | h :: t, hi =>
    show a.getD i 0 ≤
      a.getD (t.foldl (fun x p => if a.getD x 0 ≤ a.getD p 0 then p else x) h) 0
    rcases List.mem_cons.mp hi with rfl | hit
    · exact runArgmax_foldl_ge a t i i (Or.inl rfl)
    · exact runArgmax_foldl_ge a t h i (Or.inr hit)

/-- Every finished run is nonempty. -/
theorem runsFin_ne_nil (cond : ℕ → Bool) :
    ∀ (l acc : List ℕ), ∀ r ∈ runsFin cond l acc, r ≠ [] := by
  intro l
  induction l with
  | nil =>
    intro acc r hr
    exact absurd hr (List.not_mem_nil r)
  | cons p ps ih =>
    intro acc r hr
    by_cases hc : cond p = true
    · rw [runsFin_cons_pos cond p ps acc hc] at hr
      exact ih (p :: acc) r hr
    · have hcf : cond p = false := by simpa using hc
      rw [runsFin_cons_neg cond p ps acc hcf] at hr
      by_cases hacc : acc = []
      · rw [if_pos hacc] at hr
        exact ih [] r hr
      · rw [if_neg hacc] at hr
        rcases List.mem_cons.mp hr with rfl | hr
        · simpa using hacc
        · exact ih [] r hr

/-- Claim C6 (amended): for a nonnegative threshold factor,
`get_high_second_derivative_points` emits exactly one index per maximal
contiguous run of positions where `|second_derivative|` exceeds
`alpha · moving_std` **that ends strictly before the end of the signal**
(a run still open at the last position is dropped), namely the (last)
argmax of `|second_derivative|` over that run. -/
theorem claim_C6_amended (fps : ℚ) (signal : List ℚ) (alpha : ℚ) (h : 0 ≤ alpha) :
    get_high_second_derivative_points fps signal alpha =
      (runsFin (hsdCond fps signal alpha) (List.range (hsd_abs signal).length) []).map
        (runArgmax (hsd_abs signal)) ∧
    (∀ run ∈ runsFin (hsdCond fps signal alpha) (List.range (hsd_abs signal).length) [],
      runArgmax (hsd_abs signal) run ∈ run ∧
      ∀ i ∈ run, (hsd_abs signal).getD i 0 ≤
        (hsd_abs signal).getD (runArgmax (hsd_abs signal) run) 0) := by
  constructor
  · have he := hsdLoop_eq_runsFin (hsd_abs signal) (hsdCond fps signal alpha)
      (List.range (hsd_abs signal).length) []
    rw [show accCand (hsd_abs signal) ([] : List ℕ) = none from rfl] at he
    exact he
  · intro run hrun
    have hne := runsFin_ne_nil (hsdCond fps signal alpha)
      (List.range (hsd_abs signal).length) [] run hrun
    exact ⟨runArgmax_mem _ run hne, fun i hi => runArgmax_ge _ run i hi⟩

/-- Claim C6 counterexample: with `fps = 1` and the default `alpha = 1.2`, on
the signal `[0,0,0,0,0,0,0,0,100]` the single maximal above-threshold run is
`[6]`, which extends to the last position of `|second_derivative|`; the
source never flushes the still-open candidate, so it returns `[]` instead of
emitting that run's argmax. -/
theorem claim_C6_counterexample :
    get_high_second_derivative_points 1 [(0:ℚ),0,0,0,0,0,0,0,100] (6/5) = [] ∧
    runsAll (hsdCond 1 [(0:ℚ),0,0,0,0,0,0,0,100] (6/5))
      (List.range (hsd_abs [(0:ℚ),0,0,0,0,0,0,0,100]).length) [] = [[6]] := by
  have habs : hsd_abs [(0:ℚ),0,0,0,0,0,0,0,100] = [0,0,0,0,0,0,100] := by
    norm_num [hsd_abs, second_derivative, diff, oddWindow, moving_average, listMean,
      validConv, show ((1:ℤ).toNat) = 1 from by simp,
      List.range_succ, List.replicate_succ]
  have hvar : hsd_var 1 [(0:ℚ),0,0,0,0,0,0,0,100] = [0,0,0,0,1600,1600,1600] := by
    norm_num [hsd_var, second_derivative, diff, oddWindow, moving_average, listMean,
      validConv, moving_pop_variance, pop_variance, pyRound,
      avg_sec_for_local_min_max_extraction,
      show ((1:ℤ).toNat) = 1 from by simp, show ((2:ℤ).toNat) = 2 from by simp,
      List.range_succ, List.replicate_succ]
  constructor
  · unfold get_high_second_derivative_points
    norm_num [habs, hvar, hsdLoop, hsdCond, List.range_succ]
  · norm_num [habs, hvar, runsAll, hsdCond, List.range_succ]

/-- Claim C6 amended, witnessed at `fps = 1`, `alpha = 6/5` on the signal
`[0,0,0,0,0,0,100,0,0,0,0,0,0]`, whose single above-threshold run `[5]` is
finished before the end. -/
theorem claim_C6_witness :
    (0:ℚ) ≤ 6/5 ∧
    get_high_second_derivative_points 1 [(0:ℚ),0,0,0,0,0,100,0,0,0,0,0,0] (6/5) =
      (runsFin (hsdCond 1 [(0:ℚ),0,0,0,0,0,100,0,0,0,0,0,0] (6/5))
        (List.range (hsd_abs [(0:ℚ),0,0,0,0,0,100,0,0,0,0,0,0]).length) []).map
        (runArgmax (hsd_abs [(0:ℚ),0,0,0,0,0,100,0,0,0,0,0,0])) :=
  ⟨by norm_num,
   (claim_C6_amended 1 [(0:ℚ),0,0,0,0,0,100,0,0,0,0,0,0] (6/5) (by norm_num)).1⟩

end FunscriptEditor
